import Mathlib

/-!
Verification development for the FontSrt2 font organizer.

The Rust sources are embedded shallowly: strings are modelled as `List Char`
(the embedding is exact for ASCII inputs, where Rust's byte indices coincide
with character indices; every concrete input used below is ASCII), machine
integers as `Nat`, and fallible filesystem operations by explicit outcome
parameters.  Each definition mirrors one Rust function, named after it.
-/

namespace FontSrt

abbrev Str := List Char

/-- Convert a Lean string literal to the `List Char` model. -/
def cs (s : String) : Str := s.toList

/-- ASCII whitespace test (Rust `char::is_whitespace` restricted to ASCII). -/
def isWs (c : Char) : Bool := c = ' ' || c = '\t' || c = '\n' || c = '\r'

/-- Rust `str::trim_start`. -/
def trimLeft (s : Str) : Str := s.dropWhile isWs

/-- Rust `str::trim_end`. -/
def trimRight (s : Str) : Str := (s.reverse.dropWhile isWs).reverse

/-- Rust `str::trim`. -/
def trim (s : Str) : Str := trimRight (trimLeft s)

/-- Rust `str::trim_matches(c)`: strip a character from both ends. -/
def trimMatchesChar (c : Char) (s : Str) : Str :=
  ((s.dropWhile (· = c)).reverse.dropWhile (· = c)).reverse

/-- Rust `str::to_lowercase` (ASCII fragment). -/
def toLower (s : Str) : Str := s.map Char.toLower

/-- Rust `str::starts_with`. -/
def startsWith (s pre : Str) : Bool := pre.isPrefixOf s

/-- Rust `str::ends_with`. -/
def endsWith (s suf : Str) : Bool := suf.isSuffixOf s

/-- Rust `str::find(pattern)`: index of the first occurrence of `pat` in `s`. -/
def findSub (pat : Str) : Str → Option Nat
  | [] => if pat.isPrefixOf ([] : Str) then some 0 else none
  | c :: t => if pat.isPrefixOf (c :: t) then some 0 else (findSub pat t).map (· + 1)

/-- Rust `str::contains(pattern)`. -/
def containsSub (s pat : Str) : Bool := (findSub pat s).isSome

/-- Rust `str::replace(pat, rep)` for a single-character pattern and
single-character replacement: every occurrence of the character is replaced,
i.e. a character-wise map. -/
def replaceCharAll (c r : Char) (s : Str) : Str :=
  s.map (fun x => if x = c then r else x)

/-- Rust `str::replace(pat, rep)` for a string pattern, on fuel so that the
kernel can evaluate it: replace every non-overlapping occurrence, scanning
left to right; the replacement text is not rescanned.  Each step consumes at
least one character of `s` (the patterns used are nonempty), so fuel
`s.length` is always sufficient. -/
def replaceSubF (pat rep : Str) : Nat → Str → Str
  | 0, s => s
  | fuel + 1, s =>
    match s with
    | [] => []
    | c :: t =>
      if pat ≠ [] ∧ pat.isPrefixOf (c :: t) then
        rep ++ replaceSubF pat rep fuel ((c :: t).drop pat.length)
      else
        c :: replaceSubF pat rep fuel t

/-- Rust `str::replace(pat, rep)` for a string pattern. -/
def replaceSub (pat rep s : Str) : Str := replaceSubF pat rep s.length s

/-- Rust `str::split_whitespace` collected into a list of words; `acc` holds
the (reversed) current word. -/
def splitWsAux : Str → Str → List Str
  | [], acc => if acc.isEmpty then [] else [acc.reverse]
  | c :: t, acc =>
    if isWs c then
      if acc.isEmpty then splitWsAux t [] else acc.reverse :: splitWsAux t []
    else
      splitWsAux t (c :: acc)

/-- Rust `str::split_whitespace` collected into a list of words. -/
def splitWs (s : Str) : List Str := splitWsAux s []

/-- Decimal rendering of a `Nat` on fuel (each step divides by 10, so fuel
`n + 1` is always sufficient). -/
def natDigitsF : Nat → Nat → Str
  | 0, _ => []
  | fuel + 1, n =>
    if n < 10 then [Char.ofNat (48 + n)]
    else natDigitsF fuel (n / 10) ++ [Char.ofNat (48 + n % 10)]

/-- Decimal rendering of a `Nat`, as Rust's `Display` for unsigned integers. -/
def natDigits (n : Nat) : Str := natDigitsF (n + 1) n

/-! ## `src/utils/naming.rs`: `clean_name` -/

/-- The filename-invalid characters of `clean_name` (`src/utils/naming.rs`). -/
def invalidChars : List Char := ['<', '>', ':', '"', '/', '\\', '|', '?', '*']

/-- The replacement-and-trim part of `clean_name` (`src/utils/naming.rs`
lines 4–12): replace each invalid character by `'_'`, then trim whitespace
and leading/trailing dots. -/
def clean_replaced (name : Str) : Str :=
  trimMatchesChar '.' (trim (invalidChars.foldl (fun acc c => replaceCharAll c '_' acc) name))

/-- `clean_name` (`src/utils/naming.rs` lines 2–20): replace each invalid
character by `'_'`, trim whitespace then leading/trailing dots, and fall back
to `"Unknown"` when the result is empty. -/
def clean_name (name : Str) : Str :=
  if (clean_replaced name).isEmpty then cs "Unknown" else clean_replaced name

/-! ## `src/utils/naming.rs`: `normalize_family_name` (lines 38–301) -/

/-- `preserve_terms` (`src/utils/naming.rs` lines 48–58). -/
def preserve_terms : List Str :=
  [cs " Alt", cs " CF", cs " NF", cs " SC", cs " Text", cs " Display",
   cs " Serif", cs " Mono"]

/-- `embedded_preserve_terms` (`src/utils/naming.rs` lines 61–63). -/
def embedded_preserve_terms : List Str :=
  [cs "Alt", cs "CF", cs "NF", cs "SC", cs "Text", cs "Display"]

/-- `embedded_style_indicators` (`src/utils/naming.rs` lines 86–96). -/
def embedded_style_indicators : List Str :=
  [cs "Bold", cs "Italic", cs "Black", cs "Light", cs "Medium", cs "Thin", cs "Regular",
   cs "Semibold", cs "SemiBold", cs "DemiBold", cs "ExtraBold", cs "UltraBold",
   cs "ExtraLight", cs "UltraLight",
   cs "Condensed", cs "Expanded", cs "Extended", cs "Narrow", cs "Wide", cs "Compressed",
   cs "Oblique", cs "Slant", cs "Slanted", cs "BoldItalic", cs "LightItalic",
   cs "BlackItalic", cs "MediumItalic",
   cs "ThinItalic", cs "SemiBoldItalic", cs "SemiLightItalic", cs "Variable",
   cs "Hairline", cs "Book",
   cs "Heavy", cs "Ultra", cs "Super", cs "Poster", cs "Title", cs "Caps",
   cs "SansBold", cs "SansBlack", cs "SansLight", cs "SansMedium", cs "SansThin",
   cs "SansRegular",
   cs "SansItalic", cs "SansBoldItalic", cs "SansOblique", cs "SansCondensed",
   cs "SansExtended"]

/-- `common_sans_families` (`src/utils/naming.rs` line 108). -/
def common_sans_families : List Str :=
  [cs "ElaSans", cs "CirceSans", cs "ModernSans", cs "NexaSans", cs "ProximaSans"]

/-- Step 1 of `normalize_family_name` (lines 74–83): truncate before the
first digit when the digit is followed by another digit or whitespace and the
trimmed prefix is nonempty. -/
def step1_numbered (normalized : Str) : Str :=
  match normalized.findIdx? (fun c => c.isDigit) with
  | none => normalized
  | some idx =>
    let pre := trim (normalized.take idx)
    if pre ≠ [] then
      match normalized[idx + 1]? with
      | some c => if c.isDigit || isWs c then pre else normalized
      | none => normalized
    else normalized

/-- The `common_sans_families` pre-pass (lines 109–124): if the name starts
with a known Sans family and the remainder starts with an embedded style
indicator, collapse to the family name. -/
def sans_special (name : Str) : Str :=
  match common_sans_families.find? (fun fam =>
      startsWith name fam && decide (name.length > fam.length) &&
      embedded_style_indicators.any (fun ind => startsWith (name.drop fam.length) ind)) with
  | some fam => fam
  | none => name

/-- One pass over `embedded_style_indicators` of the search for the earliest
embedded indicator (lines 129–188); the state is the current best match
`(position, indicator length)` and the current best position. -/
def embeddedBestStep (name : Str) (st : Option (Nat × Nat) × Nat) (indicator : Str) :
    Option (Nat × Nat) × Nat :=
  if embedded_preserve_terms.contains indicator then st
  else match findSub indicator name with
    | none => st
    | some pos =>
      if pos > 0 then
        let prefixChar := (name[pos - 1]?).getD ' '
        if prefixChar ≠ ' ' then
          let pre := name.take pos
          let isSansFamilyName := endsWith pre (cs "Sans") &&
            (pre = cs "ElaSans" || pre = cs "CirceSans" || pre = cs "ModernSans" ||
             pre = cs "NexaSans" || pre = cs "ProximaSans" || containsSub pre (cs "Sans"))
          let isPreservedPrefix := !isSansFamilyName &&
            (endsWith pre (cs "Serif") || endsWith pre (cs "Mono"))
          if !isPreservedPrefix && pos < st.2 then (some (pos, indicator.length), pos)
          else st
        else st
      else st

/-- The best (earliest acceptable) embedded style indicator match of one loop
iteration (lines 129–188). -/
def embedded_best (name : Str) : Option (Nat × Nat) :=
  (embedded_style_indicators.foldl (embeddedBestStep name) (none, name.length)).1

/-- The embedded-indicator stripping loop (lines 127–220).  Each productive
iteration removes a nonempty indicator, so the length strictly decreases and
fuel `name.length + 1` can never be exhausted. -/
def embedded_loop : Nat → Str → Str
  | 0, name => name
  | fuel + 1, name =>
    match embedded_best name with
    | none => name
    | some (pos, len) =>
      let pre := name.take pos
      let suf := name.drop (pos + len)
      if pre.length ≥ 2 then embedded_loop fuel (pre ++ suf) else name

/-- `style_indicators` (lines 226–233). -/
def style_indicators : List Str :=
  [cs " Bold", cs " Italic", cs " Black", cs " Light", cs " Medium", cs " Thin",
   cs " Regular",
   cs " Semibold", cs " SemiBold", cs " DemiBold", cs " ExtraBold", cs " UltraBold",
   cs " ExtraLight", cs " UltraLight",
   cs " Condensed", cs " Expanded", cs " Extended", cs " Narrow", cs " Wide",
   cs " Compressed",
   cs " Oblique", cs " Slant", cs " Slanted", cs " BoldItalic", cs " LightItalic",
   cs " BlackItalic", cs " MediumItalic",
   cs " ThinItalic", cs " SemiBoldItalic", cs " SemiLightItalic", cs " Variable",
   cs " Hairline", cs " Book",
   cs " Heavy", cs " Ultra", cs " Super", cs " Poster", cs " Title"]

/-- Step 2 (lines 235–239): strip trailing spaced style indicators, one pass
over the list in source order. -/
def step2_suffix_styles (name : Str) : Str :=
  style_indicators.foldl
    (fun n ind => if endsWith n ind then trim (n.take (n.length - ind.length)) else n)
    name

/-- `variant_indicators` (line 242). -/
def variant_indicators : List Str :=
  [cs " Variable ", cs " Var ", cs " Pro ", cs " Std ", cs " Bk ", cs " Lt "]

/-- Step 3 (lines 243–247): replace mid-name variant indicators by a space. -/
def step3_variants (name : Str) : Str :=
  variant_indicators.foldl
    (fun n ind => if containsSub n ind then replaceSub ind (cs " ") n else n)
    name

/-- `suffixes` (line 250). -/
def trailing_suffixes : List Str :=
  [cs " Pro ", cs " Std ", cs " LT ", cs " MT ", cs " MS ", cs " Bk ", cs " Lt ",
   cs " Md ", cs " Bd ", cs " Rg ", cs " Sans "]

/-- Step 4 (lines 251–255): strip trailing suffix tokens. -/
def step4_suffixes (name : Str) : Str :=
  trailing_suffixes.foldl
    (fun n suf => if endsWith n suf then trim (n.take (n.length - suf.length)) else n)
    name

/-- `final_style_indicators` (lines 278–282). -/
def final_style_indicators : List Str :=
  [cs "Bold", cs "Italic", cs "Black", cs "Light", cs "Medium", cs "Thin", cs "Regular",
   cs "SemiBold", cs "ExtraBold", cs "UltraBold", cs "ExtraLight", cs "UltraLight",
   cs "Condensed", cs "Expanded", cs "Heavy", cs "Book"]

/-- The final cleanup pass (lines 284–298): the first indicator found at a
positive position whose prefix ends in `"Sans"` and has length at least 4
makes the function return that prefix. -/
def final_cleanup (checkName : Str) : Option Str :=
  final_style_indicators.findSome? (fun ind =>
    match findSub ind checkName with
    | some pos =>
      if pos > 0 then
        if endsWith (checkName.take pos) (cs "Sans") &&
            decide ((checkName.take pos).length ≥ 4) then
          some (checkName.take pos)
        else none
      else none
    | none => none)

/-- Step 7 of `normalize_family_name` (lines 266–274): when everything was
stripped away, fall back to the first whitespace-delimited word of the
original input (or to the original input itself when it has no word). -/
def step7_fallback (family_name n8 : Str) : Str :=
  if n8 = [] then (splitWs family_name).headD family_name else n8

/-- Steps 5–7 and the final cleanup of `normalize_family_name`
(lines 257–300): the `"Einer Grotesk "` special case, the trailing-whitespace
trim, the empty-result fallback, and the final `"Sans"`-prefix pass. -/
def normalize_tail (family_name n6 : Str) : Str :=
  match final_cleanup (step7_fallback family_name
      (trim (if startsWith n6 (cs "Einer Grotesk ") then cs "Einer Grotesk " else n6))) with
  | some pre => pre
  | none =>
    step7_fallback family_name
      (trim (if startsWith n6 (cs "Einer Grotesk ") then cs "Einer Grotesk " else n6))

/-- `normalize_family_name` (`src/utils/naming.rs` lines 38–301). -/
def normalize_family_name (family_name : Str) : Str :=
  if endsWith family_name (cs " Variable") then
    trim (family_name.take (family_name.length - 9))
  else if preserve_terms.any (fun t => containsSub family_name t) then
    family_name
  else
    normalize_tail family_name
      (step4_suffixes (step3_variants (step2_suffix_styles
        (embedded_loop ((sans_special (step1_numbered family_name)).length + 1)
          (sans_special (step1_numbered family_name))))))

/-! ## `src/font/weight.rs` -/

/-- `determine_weight` (`src/font/weight.rs`): the guards are tried in source
order on the lowercased subfamily string. -/
def determine_weight (subfamily : Str) : Nat :=
  let s := toLower subfamily
  if containsSub s (cs "thin") then 100
  else if containsSub s (cs "extra light") || containsSub s (cs "ultralight") then 200
  else if containsSub s (cs "light") then 300
  else if containsSub s (cs "regular") || containsSub s (cs "normal") || containsSub s (cs "book") then 400
  else if containsSub s (cs "medium") then 500
  else if containsSub s (cs "semibold") || containsSub s (cs "demibold") then 600
  else if containsSub s (cs "bold") && !containsSub s (cs "extrabold") && !containsSub s (cs "semibold") then 700
  else if containsSub s (cs "extrabold") || containsSub s (cs "ultrabold") then 800
  else if containsSub s (cs "black") || containsSub s (cs "heavy") then 900
  else if containsSub s (cs "extrablack") || containsSub s (cs "ultrablack") then 950
  else 400

/-- `is_italic_font` (`src/font/weight.rs`). -/
def is_italic_font (subfamily : Str) : Bool :=
  let s := toLower subfamily
  containsSub s (cs "italic") || containsSub s (cs "oblique")

/-! ## Data model (`src/models`) -/

/-- `NamingPattern` (`src/models/config.rs`). -/
inductive NamingPattern where
  | FamilySubfamily
  | FoundryFamilySubfamily
  | FamilyWeight
  | FoundryFamily
deriving DecidableEq

/-- `FontMetadata` (`src/models/font.rs`); the source path is reduced to the
extension, the only part the naming code consumes. -/
structure FontMetadata where
  family_name : Str
  subfamily : Str
  full_name : Str
  foundry : Str
  weight : Nat
  is_italic : Bool

/-! ## `src/utils/naming.rs`: `format_font_name` -/

/-- `format_font_name` (`src/utils/naming.rs` lines 307–340). -/
def format_font_name (m : FontMetadata) (p : NamingPattern) : Str :=
  match p with
  | .FamilySubfamily =>
    if toLower m.subfamily = cs "regular" then m.family_name
    else m.family_name ++ cs " (" ++ m.subfamily ++ cs ")"
  | .FoundryFamilySubfamily =>
    if toLower m.subfamily = cs "regular" then m.foundry ++ cs " " ++ m.family_name
    else m.foundry ++ cs " " ++ m.family_name ++ cs " (" ++ m.subfamily ++ cs ")"
  | .FamilyWeight =>
    m.family_name ++ cs " " ++ natDigits m.weight ++
      (if m.is_italic then cs " Italic " else cs "")
  | .FoundryFamily =>
    if toLower m.subfamily = cs "regular" then m.foundry ++ cs "_" ++ m.family_name
    else m.foundry ++ cs "_" ++ m.family_name ++ cs " (" ++ m.subfamily ++ cs ")"

/-! ## `src/organizer/processor.rs`: the similarity test -/

/-- The length of the shared leading-character run of two strings
(`norm1.chars().zip(norm2.chars()).take_while(|(c1, c2)| c1 == c2).count()`,
`src/organizer/processor.rs` lines 70–72). -/
def commonPrefixLen : Str → Str → Nat
  | x :: xs, y :: ys => if x = y then commonPrefixLen xs ys + 1 else 0
  | _, _ => 0

/-- The Levenshtein recurrence of `levenshtein_distance`
(`src/organizer/processor.rs` lines 91–129) on fuel: the DP matrix entry
`matrix[i][j]` of the source satisfies exactly these equations on the
prefixes of the two strings.  Each step shortens the combined input, so fuel
`s1.length + s2.length + 1` is always sufficient. -/
def levenshteinF : Nat → Str → Str → Nat
  | 0, s1, s2 => max s1.length s2.length
  | _ + 1, [], s2 => s2.length
  | _ + 1, c :: s1, [] => (c :: s1).length
  | fuel + 1, x :: s1, y :: s2 =>
    min (min (levenshteinF fuel s1 (y :: s2) + 1) (levenshteinF fuel (x :: s1) s2 + 1))
        (levenshteinF fuel s1 s2 + (if x = y then 0 else 1))

/-- `levenshtein_distance` (`src/organizer/processor.rs` lines 91–129). -/
def levenshtein_distance (s1 s2 : Str) : Nat :=
  levenshteinF (s1.length + s2.length + 1) s1 s2

/-- The per-name normalization inside `are_family_names_similar`
(`to_lowercase().replace("_", " ").trim()`, lines 31–32). -/
def similarity_norm (name : Str) : Str :=
  trim (replaceCharAll '_' ' ' (toLower name))

/-- The checks of `are_family_names_similar` performed on the two normalized
names (`src/organizer/processor.rs` lines 35–87): normalized equality, the
first-character cutoff, the mutual-prefix check, the shared-first-word check,
the common-prefix-ratio check and the Levenshtein-distance check, in source
order. -/
def simRest (norm1 norm2 : Str) : Bool :=
  if norm1 = norm2 then true
  else if norm1.head? ≠ norm2.head? then false
  else if startsWith norm1 norm2 || startsWith norm2 norm1 then true
  else if (!(splitWs norm1).isEmpty && !(splitWs norm2).isEmpty &&
        decide ((splitWs norm1).headD [] = (splitWs norm2).headD [])) &&
      decide (((splitWs norm1).headD []).length ≥ 4) then true
  else if decide (min norm1.length norm2.length ≥ 4) &&
      decide (commonPrefixLen norm1 norm2 ≥ min norm1.length norm2.length * 7 / 10) then
    true
  else
    decide (levenshtein_distance norm1 norm2 ≤ max 1 (min norm1.length norm2.length / 5))

/-- `are_family_names_similar` (`src/organizer/processor.rs` lines 19–88). -/
def are_family_names_similar (name1 name2 : Str) : Bool :=
  if name1.isEmpty || name2.isEmpty then false
  else if name1 = name2 then true
  else simRest (similarity_norm name1) (similarity_norm name2)

/-! ## `src/organizer/processor.rs`: the similarity merge of `organize_fonts`
(lines 208–267).

The merge step operates on the family groups collected from a `HashMap`
after a stable sort by descending member count; the model takes the list of
groups in that post-sort order.  Fonts are identified by abstract ids. -/

/-- One entry of `all_families`: a normalized family name together with the
fonts of its group (font ids stand for the `(PathBuf, FontMetadata)` pairs). -/
structure Group where
  name : Str
  fonts : List Nat
deriving DecidableEq

/-- The inner marking loop of the first merge pass (lines 233–239): walk all
indexed groups and mark every *other* not-yet-merged group similar to the
primary `fam` (the primary itself sits at index `i`). -/
def mark_similar (i : Nat) (fam : Str) : List (Nat × Group) → List Str → List Str
  | [], merged => merged
  | (j, g) :: rest, merged =>
    if i ≠ j ∧ g.name ∉ merged ∧ are_family_names_similar fam g.name then
      mark_similar i fam rest (g.name :: merged)
    else
      mark_similar i fam rest merged

/-- The first merge pass (lines 221–240): iterate the indexed groups; each
group not yet marked merged becomes a primary family and marks all other
unmerged similar groups as merged. -/
def select_primaries (all : List (Nat × Group)) :
    List (Nat × Group) → List Str → List Group → List Group × List Str
  | [], merged, prims => (prims.reverse, merged)
  | (i, g) :: rest, merged, prims =>
    if g.name ∈ merged then select_primaries all rest merged prims
    else select_primaries all rest (mark_similar i g.name all merged) (g :: prims)

/-- The second merge pass for one primary (lines 243–260): the bucket holds
the primary's fonts followed by the fonts of every other group whose name is
similar to the primary's. -/
def bucket_fonts (all : List Group) (primary : Group) : List Nat :=
  primary.fonts ++
    (all.filter (fun o =>
      o.name ≠ primary.name ∧ are_family_names_similar primary.name o.name)).flatMap
      Group.fonts

/-- The third merge pass (lines 262–267): re-add every group that is neither
marked merged nor already a key of the result map. -/
def merge_pass3 (merged : List Str) (res : List Group) (all : List Group) : List Group :=
  all.foldl (fun acc g =>
    if g.name ∉ merged ∧ ¬ acc.any (fun r => r.name = g.name) then
      acc ++ [g]
    else acc) res

/-- The similarity merge of `organize_fonts` (lines 208–267): first pass
selects primaries and marks merged groups, second pass builds one bucket per
primary, third pass re-adds any group that is neither merged nor already a
key of the result. -/
def merge_family_groups (all : List Group) : List Group :=
  merge_pass3 (select_primaries all.enum all.enum [] []).2
    ((select_primaries all.enum all.enum [] []).1.map
      (fun p => Group.mk p.name (bucket_fonts all p)))
    all

/-! ## `src/organizer/processor.rs`: the collision-rename loop of
`organize_fonts` (lines 377–398).

The filesystem state of the target directory is modelled by the list
`occupied` of filenames that exist there. -/

/-- The filename `"{clean_base_name}.{extension}"` (line 354). -/
def font_filename (base ext : Str) : Str := base ++ cs "." ++ ext

/-- The candidate name `"{clean_base_name}_{counter}.{extension}"`
(line 384). -/
def collision_name (base ext : Str) (counter : Nat) : Str :=
  base ++ cs "_" ++ natDigits counter ++ cs "." ++ ext

/-- The `while family_dir.join(&unique_name).exists()` loop (lines 382–386)
on fuel: while the current candidate is occupied, move to
`"{base}_{counter}.{ext}"` and increment the counter. -/
def unique_name_loop (occupied : List Str) (base ext : Str) :
    Nat → Nat → Str → Str
  | 0, _, unique => unique
  | fuel + 1, counter, unique =>
    if unique ∈ occupied then
      unique_name_loop occupied base ext fuel (counter + 1)
        (collision_name base ext counter)
    else unique

/-- The target-filename choice of `organize_fonts` (lines 377–398): if the
computed filename exists, run the rename loop starting from counter 1;
otherwise use it as is.  Fuel `occupied.length + 1` suffices: among the
`occupied.length + 1` pairwise distinct candidates `base_1.ext`, …, at least
one is free, and the loop stops at the first free one. -/
def choose_target_name (occupied : List Str) (base ext : Str) : Str :=
  let newFilename := font_filename base ext
  if newFilename ∈ occupied then
    unique_name_loop occupied base ext (occupied.length + 1) 1 newFilename
  else newFilename

/-! ## `src/utils/file.rs`: `safe_move_file` (lines 20–48).

The three filesystem calls (`fs::rename`, `fs::copy`, `fs::remove_file`) are
modelled by explicit outcome parameters; the definition mirrors how the
source combines their results. -/

/-- `safe_move_file` (`src/utils/file.rs` lines 20–48): rename fast path; on
failure copy (propagating a copy error via `?`), then delete the source,
treating a delete failure as success. -/
def safe_move_file {ε : Type} (renameRes copyRes removeRes : Except ε Unit) :
    Except ε Unit :=
  match renameRes with
  | .ok _ => .ok ()
  | .error _ =>
    match copyRes with
    | .error e => .error e
    | .ok _ =>
      match removeRes with
      | .ok _ => .ok ()
      | .error _ => .ok ()

/-- Whether an `Except` result is an error. -/
def isError {ε : Type} : Except ε Unit → Bool
  | .error _ => true
  | .ok _ => false

/-!
# Theorems
-/

set_option maxRecDepth 1000000

/-- Any name that does not end in `" Variable"` and contains one of the
(space-prefixed) preserve terms is returned unchanged by
`normalize_family_name`: the preserve check is the second early return of the
function. -/
theorem normalize_fixed_of_preserved (n : Str)
    (hv : endsWith n (cs " Variable") = false)
    (hp : preserve_terms.any (fun t => containsSub n t) = true) :
    normalize_family_name n = n := by
  unfold normalize_family_name
  rw [hv, hp]
  rw [if_neg (by decide), if_pos rfl]

/-- C2: `normalize_family_name` is not idempotent.  Counterexample:
`"Arial Bold Italic"` normalizes to `"Arial Bold"` (one pass of the trailing
style-indicator list strips `" Italic"` but cannot revisit the earlier
`" Bold"` entry), and a second application strips `" Bold"`, giving
`"Arial"`. -/
theorem C2_counterexample :
    normalize_family_name (cs "Arial Bold Italic") = cs "Arial Bold" ∧
    normalize_family_name (cs "Arial Bold") = cs "Arial" ∧
    normalize_family_name (normalize_family_name (cs "Arial Bold Italic")) ≠
      normalize_family_name (cs "Arial Bold Italic") := by decide

/-- C2 (amended): idempotence fails in general, but holds on every name that
contains a preserve term (and does not end in `" Variable"`): such names are
fixed points of `normalize_family_name`. -/
theorem C2_normalize_idempotent_on_preserved (n : Str)
    (hv : endsWith n (cs " Variable") = false)
    (hp : preserve_terms.any (fun t => containsSub n t) = true) :
    normalize_family_name (normalize_family_name n) = normalize_family_name n := by
  have h := normalize_fixed_of_preserved n hv hp
  rw [h, h]

/-- Witness for `C2_normalize_idempotent_on_preserved` at `"Foo Alt"`. -/
theorem C2_normalize_idempotent_on_preserved_witness :
    normalize_family_name (normalize_family_name (cs "Foo Alt")) =
      normalize_family_name (cs "Foo Alt") :=
  C2_normalize_idempotent_on_preserved (cs "Foo Alt") (by decide) (by decide)

/-- C3: `normalize_family_name` applied to the empty string returns the empty
string, not `"Unknown"`; the whitespace-only input `"   "` is likewise
returned as is (the first-word fallback of step 7 falls back to the original,
untrimmed input).  The `"Unknown"` substitution lives in `clean_name`. -/
theorem C3_counterexample :
    normalize_family_name (cs "") = cs "" ∧
    normalize_family_name (cs "") ≠ cs "Unknown" ∧
    normalize_family_name (cs "   ") = cs "   " := by decide

/-- C4: the preserve check is not token-based.  `"Alt Bold"` contains the
preserve term `Alt` as a whole token, yet is not returned unchanged: the
check looks for the space-prefixed substring `" Alt"`, which a name starting
with `"Alt"` does not contain, so the trailing `" Bold"` is stripped. -/
theorem C4_counterexample :
    normalize_family_name (cs "Alt Bold") = cs "Alt" ∧
    normalize_family_name (cs "Alt Bold") ≠ cs "Alt Bold" := by decide

/-- C4 (amended): the preserve check of `normalize_family_name` is
substring-based, not whole-token: any name that contains one of the
space-prefixed strings `" Alt"`, `" CF"`, `" NF"`, `" SC"`, `" Text"`,
`" Display"`, `" Serif"`, `" Mono"` (and does not end in `" Variable"`) is
returned unchanged — even when the term is embedded in a longer word such as
`" Alternate"` — while a preserve term at the very start of the name does not
trigger preservation. -/
theorem C4_preserve_is_substring_based (n : Str)
    (hv : endsWith n (cs " Variable") = false)
    (hp : preserve_terms.any (fun t => containsSub n t) = true) :
    normalize_family_name n = n :=
  normalize_fixed_of_preserved n hv hp

/-- Witness for `C4_preserve_is_substring_based` at `"Foo Alternate Bold"`,
where `Alt` occurs only inside the longer word `"Alternate"` and the name is
still returned unchanged (the claim as stated would have `" Bold"`
stripped). -/
theorem C4_preserve_is_substring_based_witness :
    normalize_family_name (cs "Foo Alternate Bold") = cs "Foo Alternate Bold" :=
  C4_preserve_is_substring_based (cs "Foo Alternate Bold") (by decide) (by decide)

/-- C5: under the `FamilyWeight` pattern with family `"Roboto"`, weight 700
and the italic flag set, `format_font_name` returns `"Roboto 700 Italic "`
with a trailing space (the source appends the literal `" Italic "`), not
`"Roboto 700 Italic"` as specified. -/
theorem C5_family_weight_trailing_space :
    format_font_name
        (FontMetadata.mk (cs "Roboto") (cs "Bold Italic") (cs "Roboto Bold Italic")
          (cs "Google") 700 true)
        NamingPattern.FamilyWeight = cs "Roboto 700 Italic " ∧
    format_font_name
        (FontMetadata.mk (cs "Roboto") (cs "Bold Italic") (cs "Roboto Bold Italic")
          (cs "Google") 700 true)
        NamingPattern.FamilyWeight ≠ cs "Roboto 700 Italic" := by decide

/-- C6: a subfamily containing `"extrablack"` (or `"ultrablack"`) also
contains `"black"`, so the `900` guard of `determine_weight` fires before the
`950` guard, which is unreachable: extra-black subfamilies get weight 900,
not the specified 950 tier. -/
theorem C6_extrablack_gets_900 :
    determine_weight (cs "ExtraBlack") = 900 ∧
    determine_weight (cs "UltraBlack") = 900 ∧
    determine_weight (cs "ExtraBlack") ≠ 950 := by decide

/-- C1: the similarity merge does not produce a partition.  With the three
single-font family groups `"abbbb"`, `"a"`, `"acccc"` (sizes are all equal,
so the list is already in stable descending-size order, and the three names
are pairwise distinct), the group `"a"` is similar to both primaries
`"abbbb"` and `"acccc"` — which are not similar to each other — so its font
(id 1) is copied into both merged buckets. -/
theorem C1_counterexample :
    merge_family_groups
        [Group.mk (cs "abbbb") [0], Group.mk (cs "a") [1], Group.mk (cs "acccc") [2]] =
      [Group.mk (cs "abbbb") [0, 1], Group.mk (cs "acccc") [2, 1]] ∧
    (([Group.mk (cs "abbbb") [0], Group.mk (cs "a") [1],
        Group.mk (cs "acccc") [2]].map Group.name).Nodup) ∧
    ((merge_family_groups
        [Group.mk (cs "abbbb") [0], Group.mk (cs "a") [1],
         Group.mk (cs "acccc") [2]]).filter (fun b => decide (1 ∈ b.fonts))).length
      = 2 := by decide

/-- C9: `safe_move_file` returns an error exactly when both the rename and
the fallback copy fail; the outcome of the source-file deletion never
influences the result — in particular, a failed rename followed by a
successful copy reports success even when the deletion fails. -/
theorem C9_safe_move_error_iff {ε : Type} (r c d d' : Except ε Unit) :
    (isError (safe_move_file r c d) = true ↔
      (isError r = true ∧ isError c = true)) ∧
    safe_move_file r c d = safe_move_file r c d' := by
  cases r with
  | ok u => cases u; cases c <;> cases d <;> cases d' <;> simp [safe_move_file, isError]
  | error e => cases c <;> cases d <;> cases d' <;> simp [safe_move_file, isError]

/-! Helper lemmas for `clean_name` (claim C8). -/

/-- Characters of `replaceCharAll c r s` are either the replacement or
untouched characters of `s` different from `c`. -/
theorem mem_replaceCharAll {a c r : Char} {s : Str} (h : a ∈ replaceCharAll c r s) :
    a = r ∨ (a ∈ s ∧ a ≠ c) := by
  unfold replaceCharAll at h
  rcases List.mem_map.1 h with ⟨x, hx, hfx⟩
  have hfx' : (if x = c then r else x) = a := hfx
  by_cases hxc : x = c
  · rw [if_pos hxc] at hfx'
    exact Or.inl hfx'.symm
  · rw [if_neg hxc] at hfx'
    exact Or.inr ⟨hfx' ▸ hx, hfx' ▸ hxc⟩

/-- A character absent from `name` and different from the replacement stays
absent through the replacement fold of `clean_name`. -/
theorem not_mem_replace_foldl_of_not_mem (rest : List Char) (c : Char)
    (hne : c ≠ '_') :
    ∀ name : Str, c ∉ name →
      c ∉ rest.foldl (fun acc d => replaceCharAll d '_' acc) name := by
  induction rest with
  | nil => intro name h; simpa using h
  | cons d rs ih =>
    intro name h
    rw [List.foldl_cons]
    apply ih
    intro hmem
    rcases mem_replaceCharAll hmem with h1 | h2
    · exact hne h1
    · exact h h2.1

/-- Every character replaced somewhere in the fold of `clean_name` is absent
from the final result. -/
theorem not_mem_replace_foldl (l : List Char) (c : Char) (hc : c ∈ l)
    (hne : c ≠ '_') :
    ∀ name : Str, c ∉ l.foldl (fun acc d => replaceCharAll d '_' acc) name := by
  induction l with
  | nil => cases hc
  | cons d rest ih =>
    intro name
    rw [List.foldl_cons]
    rcases List.mem_cons.1 hc with h | h
    · subst h
      apply not_mem_replace_foldl_of_not_mem rest c hne
      intro hmem
      rcases mem_replaceCharAll hmem with h1 | h2
      · exact hne h1
      · exact h2.2 rfl
    · exact ih h (replaceCharAll d '_' name)

/-- Membership is preserved from `trimLeft s` into `s`. -/
theorem mem_of_mem_trimLeft {c : Char} {s : Str} (h : c ∈ trimLeft s) : c ∈ s :=
  (List.dropWhile_suffix isWs).sublist.mem h

/-- Membership is preserved from `trimRight s` into `s`. -/
theorem mem_of_mem_trimRight {c : Char} {s : Str} (h : c ∈ trimRight s) : c ∈ s := by
  unfold trimRight at h
  rw [List.mem_reverse] at h
  exact List.mem_reverse.1 ((List.dropWhile_suffix isWs).sublist.mem h)

/-- Membership is preserved from `trim s` into `s`. -/
theorem mem_of_mem_trim {c : Char} {s : Str} (h : c ∈ trim s) : c ∈ s :=
  mem_of_mem_trimLeft (mem_of_mem_trimRight h)

/-- Membership is preserved from `trimMatchesChar d s` into `s`. -/
theorem mem_of_mem_trimMatchesChar {c d : Char} {s : Str}
    (h : c ∈ trimMatchesChar d s) : c ∈ s := by
  unfold trimMatchesChar at h
  rw [List.mem_reverse] at h
  have h1 := (List.dropWhile_suffix (fun x => x = d)).sublist.mem h
  rw [List.mem_reverse] at h1
  exact (List.dropWhile_suffix (fun x => x = d)).sublist.mem h1

/-- `clean_name` removes every filename-invalid character. -/
theorem clean_name_no_invalid (s : Str) : ∀ c ∈ invalidChars, c ∉ clean_name s := by
  intro c hc hmem
  have hne : c ≠ '_' := by
    revert hc
    have : ∀ x ∈ invalidChars, x ≠ '_' := by decide
    exact this c
  simp only [clean_name] at hmem
  split at hmem
  · revert hmem
    fin_cases hc <;> decide
  · unfold clean_replaced at hmem
    exact not_mem_replace_foldl invalidChars c hc hne s
      (mem_of_mem_trim (mem_of_mem_trimMatchesChar hmem))

/-- `clean_name` never returns the empty string. -/
theorem clean_name_ne_nil (s : Str) : clean_name s ≠ [] := by
  unfold clean_name
  split
  · decide
  · next h => simpa [List.isEmpty_iff] using h

/-- C8: for every metadata record and naming pattern, the generated filename
base — `format_font_name` passed through `clean_name` — contains none of the
characters `<>:"/\|?*`, and it is never empty. -/
theorem C8_generated_base_is_clean (m : FontMetadata) (p : NamingPattern) :
    (∀ c ∈ invalidChars, c ∉ clean_name (format_font_name m p)) ∧
    clean_name (format_font_name m p) ≠ [] :=
  ⟨clean_name_no_invalid (format_font_name m p),
   clean_name_ne_nil (format_font_name m p)⟩

/-- Witness for `C8_generated_base_is_clean` at a concrete metadata record
with every invalid character occurring in its fields, under the
`FoundryFamilySubfamily` pattern. -/
theorem C8_generated_base_is_clean_witness :
    '/' ∉ clean_name (format_font_name
      (FontMetadata.mk (cs "A/B:C*D") (cs "<Bold>") (cs "x") (cs "F|G?\\\"") 400 false)
      NamingPattern.FoundryFamilySubfamily) ∧
    clean_name (format_font_name
      (FontMetadata.mk (cs "A/B:C*D") (cs "<Bold>") (cs "x") (cs "F|G?\\\"") 400 false)
      NamingPattern.FoundryFamilySubfamily) ≠ [] :=
  ⟨(C8_generated_base_is_clean
      (FontMetadata.mk (cs "A/B:C*D") (cs "<Bold>") (cs "x") (cs "F|G?\\\"") 400 false)
      NamingPattern.FoundryFamilySubfamily).1 '/' (by decide),
   (C8_generated_base_is_clean
      (FontMetadata.mk (cs "A/B:C*D") (cs "<Bold>") (cs "x") (cs "F|G?\\\"") 400 false)
      NamingPattern.FoundryFamilySubfamily).2⟩

/-! Helper lemmas for step 7 of `normalize_family_name` (claim C3). -/

/-- Every word produced by `splitWsAux` is nonempty. -/
theorem splitWsAux_words_ne_nil :
    ∀ (s acc : Str), ∀ w ∈ splitWsAux s acc, w ≠ [] := by
  intro s
  induction s with
  | nil =>
    intro acc w hw
    unfold splitWsAux at hw
    split at hw
    · simp at hw
    · next h =>
      rw [List.mem_singleton] at hw
      subst hw
      simp only [List.isEmpty_iff] at h
      simpa using h
  | cons c t ih =>
    intro acc w hw
    unfold splitWsAux at hw
    split at hw
    · split at hw
      · exact ih [] w hw
      · next h =>
        rcases List.mem_cons.1 hw with rfl | hw'
        · simp only [List.isEmpty_iff] at h
          simpa using h
        · exact ih [] w hw'
    · exact ih (c :: acc) w hw

/-- `splitWsAux` returns at least one word if the accumulator is nonempty or
some character of the input is not whitespace. -/
theorem splitWsAux_ne_nil :
    ∀ (s acc : Str), (acc ≠ [] ∨ ∃ ch ∈ s, isWs ch = false) →
      splitWsAux s acc ≠ [] := by
  intro s
  induction s with
  | nil =>
    intro acc h
    unfold splitWsAux
    rcases h with h | ⟨ch, hch, _⟩
    · rw [if_neg (by simpa [List.isEmpty_iff] using h)]
      simp
    · cases hch
  | cons c t ih =>
    intro acc h
    unfold splitWsAux
    split
    · next hws =>
      split
      · next hacc =>
        apply ih []
        right
        simp only [List.isEmpty_iff] at hacc
        rcases h with h | ⟨ch, hch, hchws⟩
        · exact absurd hacc h
        · rcases List.mem_cons.1 hch with rfl | hch'
          · rw [hws] at hchws; cases hchws
          · exact ⟨ch, hch', hchws⟩
      · simp
    · apply ih (c :: acc)
      left
      simp

/-- A string with a nonempty trim has a non-whitespace character. -/
theorem exists_not_ws_of_trim_ne_nil :
    ∀ s : Str, trim s ≠ [] → ∃ ch ∈ s, isWs ch = false := by
  intro s
  induction s with
  | nil => intro h; exact absurd rfl h
  | cons c t ih =>
    intro h
    by_cases hc : isWs c = true
    · have heq : trim (c :: t) = trim t := by
        unfold trim trimLeft
        rw [List.dropWhile_cons, if_pos hc]
      rcases ih (heq ▸ h) with ⟨ch, h1, h2⟩
      exact ⟨ch, List.mem_cons_of_mem _ h1, h2⟩
    · exact ⟨c, List.mem_cons_self .., by simpa using hc⟩

/-- The step-7 fallback never returns the empty string when the original
input has a nonempty trim. -/
theorem step7_fallback_ne_nil (orig y : Str) (h : trim orig ≠ []) :
    step7_fallback orig y ≠ [] := by
  unfold step7_fallback
  split
  · have hs : splitWs orig ≠ [] :=
      splitWsAux_ne_nil orig [] (Or.inr (exists_not_ws_of_trim_ne_nil orig h))
    cases hsp : splitWs orig with
    | nil => exact absurd hsp hs
    | cons w ws =>
      have hmem : w ∈ splitWs orig := by rw [hsp]; exact List.mem_cons_self w ws
      simpa using splitWsAux_words_ne_nil orig [] w hmem
  · assumption

/-- A prefix returned by `final_cleanup` has length at least 4, hence is
nonempty. -/
theorem final_cleanup_some_ne_nil {cn pre : Str}
    (h : final_cleanup cn = some pre) : pre ≠ [] := by
  unfold final_cleanup at h
  rcases List.exists_of_findSome?_eq_some h with ⟨ind, hind, hf⟩
  cases hfind : findSub ind cn with
  | none => rw [hfind] at hf; cases hf
  | some pos =>
    rw [hfind] at hf
    dsimp only at hf
    split at hf
    · split at hf
      · next hcond =>
        have hpre : cn.take pos = pre := Option.some.inj hf
        rw [Bool.and_eq_true] at hcond
        have h4 : 4 ≤ pre.length := by
          have hlen := of_decide_eq_true hcond.2
          rw [hpre] at hlen
          exact hlen
        intro hnil
        rw [hnil] at h4
        simp at h4
      · cases hf
    · cases hf

/-- `normalize_tail` never returns the empty string when the original input
has a nonempty trim. -/
theorem normalize_tail_ne_nil (orig x : Str) (h : trim orig ≠ []) :
    normalize_tail orig x ≠ [] := by
  unfold normalize_tail
  split
  · next pre hpre => exact final_cleanup_some_ne_nil hpre
  · exact step7_fallback_ne_nil orig _ h

/-- C3 (amended): `normalize_family_name` never returns the empty string for
an input whose trim is nonempty and that does not end in `" Variable"`; the
claim as stated is false — the empty input yields the empty string (and the
`"Unknown"` collapse is performed by `clean_name`, not by
`normalize_family_name`). -/
theorem C3_normalize_nonempty (s : Str) (h1 : trim s ≠ [])
    (h2 : endsWith s (cs " Variable") = false) :
    normalize_family_name s ≠ [] := by
  unfold normalize_family_name
  rw [h2, if_neg (by decide)]
  split
  · intro hnil
    apply h1
    rw [hnil]
    rfl
  · exact normalize_tail_ne_nil s _ h1

/-- Witness for `C3_normalize_nonempty` at `"Helvetica Neue"`. -/
theorem C3_normalize_nonempty_witness :
    normalize_family_name (cs "Helvetica Neue") ≠ [] :=
  C3_normalize_nonempty (cs "Helvetica Neue") (by decide) (by decide)

/-! Helper lemmas for the collision-rename loop (claim C7). -/

/-- Numeric value of a decimal digit character. -/
def digitVal (c : Char) : Nat := c.toNat - 48

/-- Decimal value of a digit string (left inverse of `natDigits`, used only
to prove injectivity). -/
def fromDigits (s : Str) : Nat := s.foldl (fun a c => 10 * a + digitVal c) 0

/-- `digitVal` inverts the digit-character construction. -/
theorem digitVal_ofNat : ∀ n, n < 10 → digitVal (Char.ofNat (48 + n)) = n := by
  decide

/-- `fromDigits` peels the last digit. -/
theorem fromDigits_append (xs : Str) (c : Char) :
    fromDigits (xs ++ [c]) = 10 * fromDigits xs + digitVal c := by
  unfold fromDigits
  rw [List.foldl_append]
  rfl

/-- Round trip of the fuelled digit rendering. -/
theorem fromDigits_natDigitsF :
    ∀ fuel n, n < 10 ^ fuel → fromDigits (natDigitsF fuel n) = n := by
  intro fuel
  induction fuel with
  | zero =>
    intro n h
    have hn : n = 0 := by simpa using h
    subst hn
    rfl
  | succ f ih =>
    intro n h
    unfold natDigitsF
    split
    · next h10 =>
      unfold fromDigits
      simp only [List.foldl_cons, List.foldl_nil]
      rw [show (10 * 0 + digitVal (Char.ofNat (48 + n))) = digitVal (Char.ofNat (48 + n)) by omega]
      exact digitVal_ofNat n h10
    · next h10 =>
      have hdiv : n / 10 < 10 ^ f := by
        rw [Nat.div_lt_iff_lt_mul (by norm_num : (0:ℕ) < 10)]
        rw [pow_succ] at h
        exact h
      rw [fromDigits_append, ih (n / 10) hdiv, digitVal_ofNat (n % 10) (by omega)]
      omega

/-- Round trip of `natDigits`. -/
theorem fromDigits_natDigits (n : Nat) : fromDigits (natDigits n) = n :=
  fromDigits_natDigitsF (n + 1) n
    (lt_of_lt_of_le (Nat.lt_pow_self (by norm_num) n)
      (Nat.pow_le_pow_right (by norm_num) (Nat.le_succ n)))

/-- `natDigits` is injective. -/
theorem natDigits_inj {m n : Nat} (h : natDigits m = natDigits n) : m = n := by
  have hm := fromDigits_natDigits m
  have hn := fromDigits_natDigits n
  rw [← hm, ← hn, h]

/-- The candidate collision names are pairwise distinct. -/
theorem collision_name_inj (base ext : Str) {a b : Nat}
    (h : collision_name base ext a = collision_name base ext b) : a = b := by
  unfold collision_name at h
  simp only [List.append_assoc] at h
  have h1 := List.append_cancel_left h
  have h2 := List.append_cancel_left h1
  have h3 := List.append_cancel_right h2
  exact natDigits_inj h3

/-- Among the first `occupied.length + 1` candidate names at least one is
free. -/
theorem exists_free_name (occupied : List Str) (base ext : Str) :
    ∃ k, 1 ≤ k ∧ k ≤ occupied.length + 1 ∧
      collision_name base ext k ∉ occupied := by
  by_contra hcon
  push_neg at hcon
  have hsub : ((List.range (occupied.length + 1)).map
      (fun i => collision_name base ext (i + 1))) ⊆ occupied := by
    intro x hx
    rcases List.mem_map.1 hx with ⟨i, hi, rfl⟩
    rw [List.mem_range] at hi
    exact hcon (i + 1) (by omega) (by omega)
  have hnd : ((List.range (occupied.length + 1)).map
      (fun i => collision_name base ext (i + 1))).Nodup := by
    refine List.Nodup.map ?_ (List.nodup_range _)
    intro x y hxy
    have := collision_name_inj base ext hxy
    omega
  have hlen : occupied.length + 1 ≤ occupied.length := by
    calc occupied.length + 1
        = ((List.range (occupied.length + 1)).map
            (fun i => collision_name base ext (i + 1))).length := by simp
      _ = ((List.range (occupied.length + 1)).map
            (fun i => collision_name base ext (i + 1))).toFinset.card :=
          (List.toFinset_card_of_nodup hnd).symm
      _ ≤ occupied.toFinset.card := by
          apply Finset.card_le_card
          intro a ha
          rw [List.mem_toFinset] at ha ⊢
          exact hsub ha
      _ ≤ occupied.length := occupied.toFinset_card_le
  omega

/-- The rename loop returns an unoccupied candidate unchanged. -/
theorem unique_name_loop_not_occupied (occupied : List Str) (base ext : Str) :
    ∀ fuel counter unique, unique ∉ occupied →
      unique_name_loop occupied base ext fuel counter unique = unique := by
  intro fuel
  cases fuel with
  | zero => intro counter unique _; rfl
  | succ f =>
    intro counter unique h
    unfold unique_name_loop
    rw [if_neg h]

/-- Given enough fuel, the rename loop starting at `counter` on an occupied
candidate stops exactly at the least free counter value `k`. -/
theorem unique_name_loop_finds_least (occupied : List Str) (base ext : Str) :
    ∀ fuel counter unique k, unique ∈ occupied → counter ≤ k →
      k < counter + fuel →
      collision_name base ext k ∉ occupied →
      (∀ j, counter ≤ j → j < k → collision_name base ext j ∈ occupied) →
      unique_name_loop occupied base ext fuel counter unique =
        collision_name base ext k := by
  intro fuel
  induction fuel with
  | zero => intro counter unique k _ h1 h2 _ _; omega
  | succ f ih =>
    intro counter unique k hu h1 h2 hk hmin
    unfold unique_name_loop
    rw [if_pos hu]
    rcases Nat.eq_or_lt_of_le h1 with rfl | hlt
    · exact unique_name_loop_not_occupied occupied base ext f (counter + 1)
        (collision_name base ext counter) hk
    · exact ih (counter + 1) (collision_name base ext counter) k
        (hmin counter (Nat.le_refl counter) hlt) hlt (by omega) hk
        (fun j hj1 hj2 => hmin j (by omega) hj2)

/-- C7: when the computed target filename already exists in the directory,
the rename logic picks `"{base}_{n}.{ext}"` for the least `n ≥ 1` whose name
is free (every smaller candidate is occupied), and the chosen name is not
occupied — no existing file is ever overwritten, so both files persist under
distinct names. -/
theorem C7_collision_never_overwrites (occupied : List Str) (base ext : Str)
    (hocc : font_filename base ext ∈ occupied) :
    choose_target_name occupied base ext ∉ occupied ∧
    ∃ n, 1 ≤ n ∧
      choose_target_name occupied base ext = collision_name base ext n ∧
      (∀ m, 1 ≤ m → m < n → collision_name base ext m ∈ occupied) := by
  obtain ⟨k, hk1, hk2, hkfree⟩ := exists_free_name occupied base ext
  have hP : ∃ j, collision_name base ext (j + 1) ∉ occupied := by
    refine ⟨k - 1, ?_⟩
    rw [Nat.sub_add_cancel hk1]
    exact hkfree
  set j0 := Nat.find hP with hj0
  have hfree : collision_name base ext (j0 + 1) ∉ occupied := Nat.find_spec hP
  have hminP : ∀ m, 1 ≤ m → m < j0 + 1 → collision_name base ext m ∈ occupied := by
    intro m hm1 hmlt
    have hlt : m - 1 < j0 := by omega
    have := Nat.find_min hP hlt
    rw [Nat.sub_add_cancel hm1] at this
    exact Decidable.not_not.1 this
  have hj0le : j0 ≤ k - 1 := Nat.find_min' hP (by rw [Nat.sub_add_cancel hk1]; exact hkfree)
  have hloop : unique_name_loop occupied base ext (occupied.length + 1) 1
      (font_filename base ext) = collision_name base ext (j0 + 1) :=
    unique_name_loop_finds_least occupied base ext (occupied.length + 1) 1
      (font_filename base ext) (j0 + 1) hocc (by omega) (by omega) hfree
      (fun j hj1 hj2 => hminP j hj1 hj2)
  have hchoose : choose_target_name occupied base ext =
      collision_name base ext (j0 + 1) := by
    unfold choose_target_name
    rw [if_pos hocc]
    exact hloop
  refine ⟨?_, j0 + 1, by omega, hchoose, hminP⟩
  rw [hchoose]
  exact hfree

/-- Witness for `C7_collision_never_overwrites` at the spec's scenario: the
directory already holds `"Inter.ttf"` and the chosen name is a fresh
`"Inter_n.ttf"`. -/
theorem C7_collision_never_overwrites_witness :
    choose_target_name [cs "Inter.ttf"] (cs "Inter") (cs "ttf") ∉
      [cs "Inter.ttf"] ∧
    ∃ n, 1 ≤ n ∧
      choose_target_name [cs "Inter.ttf"] (cs "Inter") (cs "ttf") =
        collision_name (cs "Inter") (cs "ttf") n ∧
      (∀ m, 1 ≤ m → m < n →
        collision_name (cs "Inter") (cs "ttf") m ∈ [cs "Inter.ttf"]) :=
  C7_collision_never_overwrites [cs "Inter.ttf"] (cs "Inter") (cs "ttf")
    (by decide)

/-! Helper lemmas for the similarity test's symmetry (claim C10). -/

/-- The shared-prefix count is symmetric. -/
theorem commonPrefixLen_comm : ∀ a b : Str, commonPrefixLen a b = commonPrefixLen b a := by
  intro a
  induction a with
  | nil => intro b; cases b <;> rfl
  | cons x xs ih =>
    intro b
    cases b with
    | nil => rfl
    | cons y ys =>
      unfold commonPrefixLen
      by_cases h : x = y
      · rw [if_pos h, if_pos h.symm, ih ys]
      · rw [if_neg h, if_neg (Ne.symm h)]

/-- The fuelled Levenshtein recurrence is symmetric in its two strings. -/
theorem levenshteinF_comm : ∀ fuel (a b : Str),
    levenshteinF fuel a b = levenshteinF fuel b a := by
  intro fuel
  induction fuel with
  | zero => intro a b; unfold levenshteinF; exact Nat.max_comm _ _
  | succ f ih =>
    intro a b
    cases a with
    | nil => cases b <;> rfl
    | cons x xs =>
      cases b with
      | nil => rfl
      | cons y ys =>
        unfold levenshteinF
        rw [ih xs (y :: ys), ih (x :: xs) ys, ih xs ys]
        have hc : (if x = y then 0 else 1) = (if y = x then 0 else 1) := by
          by_cases h : x = y
          · rw [if_pos h, if_pos h.symm]
          · rw [if_neg h, if_neg (Ne.symm h)]
        rw [hc, Nat.min_comm (levenshteinF f ys (x :: xs) + 1)
          (levenshteinF f (y :: ys) xs + 1)]

/-- `levenshtein_distance` is symmetric. -/
theorem levenshtein_distance_comm (a b : Str) :
    levenshtein_distance a b = levenshtein_distance b a := by
  unfold levenshtein_distance
  rw [Nat.add_comm a.length b.length]
  exact levenshteinF_comm _ a b

/-- The post-normalization check chain of the similarity test is symmetric. -/
theorem simRest_comm (x y : Str) : simRest x y = simRest y x := by
  unfold simRest
  by_cases h1 : x = y
  · rw [if_pos h1, if_pos h1.symm]
  · rw [if_neg h1, if_neg (Ne.symm h1)]
    by_cases h2 : x.head? ≠ y.head?
    · rw [if_pos h2, if_pos (Ne.symm h2)]
    · rw [if_neg h2, if_neg (fun hh => h2 (Ne.symm hh))]
      have hc3 : (startsWith x y || startsWith y x) = (startsWith y x || startsWith x y) :=
        Bool.or_comm _ _
      have hc4 : ((!(splitWs x).isEmpty && !(splitWs y).isEmpty &&
            decide ((splitWs x).headD [] = (splitWs y).headD [])) &&
          decide (((splitWs x).headD []).length ≥ 4)) =
          ((!(splitWs y).isEmpty && !(splitWs x).isEmpty &&
            decide ((splitWs y).headD [] = (splitWs x).headD [])) &&
          decide (((splitWs y).headD []).length ≥ 4)) := by
        by_cases h : (splitWs x).headD [] = (splitWs y).headD []
        · rw [h]
          cases (splitWs x).isEmpty <;> cases (splitWs y).isEmpty <;> simp
        · have h' : (splitWs y).headD [] ≠ (splitWs x).headD [] := fun hh => h hh.symm
          simp only [List.headD_eq_head?_getD] at h h'
          simp [h, h']
      have hc5 : (decide (min x.length y.length ≥ 4) &&
            decide (commonPrefixLen x y ≥ min x.length y.length * 7 / 10)) =
          (decide (min y.length x.length ≥ 4) &&
            decide (commonPrefixLen y x ≥ min y.length x.length * 7 / 10)) := by
        rw [Nat.min_comm x.length y.length, commonPrefixLen_comm x y]
      have hc6 : (decide (levenshtein_distance x y ≤ max 1 (min x.length y.length / 5))) =
          (decide (levenshtein_distance y x ≤ max 1 (min y.length x.length / 5))) := by
        rw [Nat.min_comm x.length y.length, levenshtein_distance_comm x y]
      rw [hc3, hc4, hc5, hc6]

/-- C10: `are_family_names_similar` is symmetric: every check it performs —
emptiness, raw equality, normalized equality, the first-character cutoff, the
mutual-prefix test, the shared-first-word test, the common-prefix-ratio test
and the Levenshtein-distance test — treats its two arguments
interchangeably. -/
theorem C10_similar_symmetric (a b : Str) :
    are_family_names_similar a b = are_family_names_similar b a := by
  unfold are_family_names_similar
  by_cases h0 : (a.isEmpty || b.isEmpty) = true
  · have h0' : (b.isEmpty || a.isEmpty) = true := by rw [Bool.or_comm]; exact h0
    rw [if_pos h0, if_pos h0']
  · have h0' : ¬(b.isEmpty || a.isEmpty) = true := by rw [Bool.or_comm]; exact h0
    rw [if_neg h0, if_neg h0']
    by_cases h1 : a = b
    · rw [if_pos h1, if_pos h1.symm]
    · rw [if_neg h1, if_neg (Ne.symm h1)]
      exact simRest_comm _ _

/-! Helper lemmas for the similarity merge (claim C1). -/

/-- The marking loop only ever adds names: previous members persist. -/
theorem mem_mark_similar_of_mem (i : Nat) (fam : Str) :
    ∀ (l : List (Nat × Group)) (merged : List Str) (n : Str),
      n ∈ merged → n ∈ mark_similar i fam l merged := by
  intro l
  induction l with
  | nil => intro merged n h; exact h
  | cons jg rest ih =>
    intro merged n h
    obtain ⟨j, g⟩ := jg
    unfold mark_similar
    split
    · exact ih _ n (List.mem_cons_of_mem _ h)
    · exact ih _ n h

/-- Every name in the marking loop's output was already merged or belongs to
a walked group similar to the primary. -/
theorem mark_similar_mem_cases (i : Nat) (fam : Str) :
    ∀ (l : List (Nat × Group)) (merged : List Str) (n : Str),
      n ∈ mark_similar i fam l merged →
      n ∈ merged ∨
        ∃ jg ∈ l, (jg : Nat × Group).2.name = n ∧
          are_family_names_similar fam n = true := by
  intro l
  induction l with
  | nil => intro merged n h; exact Or.inl h
  | cons jg rest ih =>
    intro merged n h
    obtain ⟨j, g⟩ := jg
    unfold mark_similar at h
    split at h
    · next hcond =>
      rcases ih _ n h with hm | ⟨jg', hjg', hname, hsim⟩
      · rcases List.mem_cons.1 hm with rfl | hm'
        · exact Or.inr ⟨(j, g), List.mem_cons_self _ _, rfl, hcond.2.2⟩
        · exact Or.inl hm'
      · exact Or.inr ⟨jg', List.mem_cons_of_mem _ hjg', hname, hsim⟩
    · rcases ih _ n h with hm | ⟨jg', hjg', hname, hsim⟩
      · exact Or.inl hm
      · exact Or.inr ⟨jg', List.mem_cons_of_mem _ hjg', hname, hsim⟩

/-- An indexed pair of `l.enum` carries an element of `l`. -/
theorem snd_mem_of_mem_enum {l : List Group} {i : Nat} {g : Group}
    (h : (i, g) ∈ l.enum) : g ∈ l := by
  have hmap : l.enum.map Prod.snd = l := List.enum_map_snd l
  have hm : g ∈ l.enum.map Prod.snd := List.mem_map_of_mem Prod.snd h
  rw [hmap] at hm
  exact hm

/-- Invariants of the first merge pass: primaries come from the input list;
every merged name has a similar primary; every walked group either becomes a
primary or is marked merged; accumulated primaries and merged names
persist. -/
theorem select_primaries_spec (allG : List Group) :
    ∀ (work : List (Nat × Group)) (merged : List Str) (prims : List Group),
      (∀ ig ∈ work, ig ∈ allG.enum) →
      (∀ p ∈ prims, p ∈ allG) →
      (∀ n ∈ merged, ∃ p ∈ prims, are_family_names_similar p.name n = true) →
      (∀ p ∈ (select_primaries allG.enum work merged prims).1, p ∈ allG) ∧
      (∀ n ∈ (select_primaries allG.enum work merged prims).2,
        ∃ p ∈ (select_primaries allG.enum work merged prims).1,
          are_family_names_similar p.name n = true) ∧
      (∀ ig ∈ work,
        (ig : Nat × Group).2 ∈ (select_primaries allG.enum work merged prims).1 ∨
        (ig : Nat × Group).2.name ∈ (select_primaries allG.enum work merged prims).2) ∧
      (∀ p ∈ prims, p ∈ (select_primaries allG.enum work merged prims).1) ∧
      (∀ n ∈ merged, n ∈ (select_primaries allG.enum work merged prims).2) := by
  intro work
  induction work with
  | nil =>
    intro merged prims _ hprims hmerged
    refine ⟨?_, ?_, ?_, ?_, ?_⟩
    · intro p hp
      exact hprims p (List.mem_reverse.1 hp)
    · intro n hn
      rcases hmerged n hn with ⟨p, hp, hsim⟩
      exact ⟨p, List.mem_reverse.2 hp, hsim⟩
    · intro ig hig; cases hig
    · intro p hp; exact List.mem_reverse.2 hp
    · intro n hn; exact hn
  | cons ig rest ih =>
    intro merged prims hwork hprims hmerged
    obtain ⟨i, g⟩ := ig
    show _ ∧ _ ∧ _ ∧ _ ∧ _
    unfold select_primaries
    split
    · next hmem =>
      obtain ⟨c1, c2, c3, c4, c5⟩ :=
        ih merged prims (fun x hx => hwork x (List.mem_cons_of_mem _ hx)) hprims hmerged
      refine ⟨c1, c2, ?_, c4, c5⟩
      intro jg hjg
      rcases List.mem_cons.1 hjg with rfl | hjg'
      · exact Or.inr (c5 _ hmem)
      · exact c3 jg hjg'
    · next hmem =>
      have hgall : g ∈ allG :=
        snd_mem_of_mem_enum (hwork (i, g) (List.mem_cons_self _ _))
      have hprims' : ∀ p ∈ g :: prims, p ∈ allG := by
        intro p hp
        rcases List.mem_cons.1 hp with rfl | hp'
        · exact hgall
        · exact hprims p hp'
      have hmerged' : ∀ n ∈ mark_similar i g.name allG.enum merged,
          ∃ p ∈ g :: prims, are_family_names_similar p.name n = true := by
        intro n hn
        rcases mark_similar_mem_cases i g.name allG.enum merged n hn with hm | ⟨_, _, _, hsim⟩
        · rcases hmerged n hm with ⟨p, hp, hsim⟩
          exact ⟨p, List.mem_cons_of_mem _ hp, hsim⟩
        · exact ⟨g, List.mem_cons_self _ _, hsim⟩
      obtain ⟨c1, c2, c3, c4, c5⟩ :=
        ih (mark_similar i g.name allG.enum merged) (g :: prims)
          (fun x hx => hwork x (List.mem_cons_of_mem _ hx)) hprims' hmerged'
      refine ⟨c1, c2, ?_, ?_, ?_⟩
      · intro jg hjg
        rcases List.mem_cons.1 hjg with rfl | hjg'
        · exact Or.inl (c4 _ (List.mem_cons_self _ _))
        · exact c3 jg hjg'
      · intro p hp
        exact c4 p (List.mem_cons_of_mem _ hp)
      · intro n hn
        exact c5 n (mem_mark_similar_of_mem i g.name allG.enum merged n hn)

/-- The third merge pass only appends, so members of the intermediate result
survive into the final one. -/
theorem mem_merge_pass3_of_mem (merged : List Str) (b : Group) :
    ∀ (all : List Group) (res : List Group), b ∈ res →
      b ∈ merge_pass3 merged res all := by
  intro all
  unfold merge_pass3
  induction all with
  | nil => intro res hb; exact hb
  | cons g rest ih =>
    intro res hb
    rw [List.foldl_cons]
    apply ih
    dsimp only
    split
    · exact List.mem_append_left _ hb
    · exact hb

/-- C1 (amended): the merge drops nothing — every input family group's fonts
are contained in at least one merged bucket.  (The merge is not a partition:
`C1_counterexample` shows a group can be copied into two buckets.) -/
theorem C1_no_font_dropped (allG : List Group)
    (hnd : (allG.map Group.name).Nodup) (g : Group) (hg : g ∈ allG) :
    ∃ b ∈ merge_family_groups allG, g.fonts ⊆ b.fonts := by
  obtain ⟨c1, c2, c3, c4, c5⟩ :=
    select_primaries_spec allG allG.enum [] [] (fun _ h => h)
      (fun p hp => absurd hp (List.not_mem_nil p))
      (fun n hn => absurd hn (List.not_mem_nil n))
  have hge : ∃ i, (i, g) ∈ allG.enum := by
    have hmap : allG.enum.map Prod.snd = allG := List.enum_map_snd allG
    have hm : g ∈ allG.enum.map Prod.snd := by rw [hmap]; exact hg
    rcases List.mem_map.1 hm with ⟨⟨i, g'⟩, hmem, hsnd⟩
    exact ⟨i, by rwa [show g' = g from hsnd] at hmem⟩
  obtain ⟨i, hig⟩ := hge
  have hbucket : ∀ p ∈ (select_primaries allG.enum allG.enum [] []).1,
      Group.mk p.name (bucket_fonts allG p) ∈ merge_family_groups allG := by
    intro p hp
    unfold merge_family_groups
    exact mem_merge_pass3_of_mem _ _ allG _
      (List.mem_map_of_mem (fun q => Group.mk q.name (bucket_fonts allG q)) hp)
  have hprimary : ∀ p ∈ (select_primaries allG.enum allG.enum [] []).1, p = g →
      ∃ b ∈ merge_family_groups allG, g.fonts ⊆ b.fonts := by
    intro p hp hpg
    subst hpg
    refine ⟨Group.mk p.name (bucket_fonts allG p), hbucket p hp, ?_⟩
    exact List.subset_append_left _ _
  rcases c3 (i, g) hig with hP | hM
  · exact hprimary g hP rfl
  · obtain ⟨p, hpP, hsim⟩ := c2 g.name hM
    by_cases hpn : p.name = g.name
    · have hpg : p = g := List.inj_on_of_nodup_map hnd (c1 p hpP) hg hpn
      exact hprimary p hpP hpg
    · refine ⟨Group.mk p.name (bucket_fonts allG p), hbucket p hpP, ?_⟩
      intro f hf
      have hfilter : g ∈ allG.filter (fun o =>
          o.name ≠ p.name ∧ are_family_names_similar p.name o.name) := by
        apply List.mem_filter.2
        refine ⟨hg, ?_⟩
        exact decide_eq_true ⟨fun hh => hpn hh.symm, hsim⟩
      exact List.mem_append_right _ (List.mem_flatMap.2 ⟨g, hfilter, hf⟩)

/-- Witness for `C1_no_font_dropped`: in the three-group counterexample
input, the fonts of the single-font group `"a"` do appear in a merged
bucket. -/
theorem C1_no_font_dropped_witness :
    ∃ b ∈ merge_family_groups
        [Group.mk (cs "abbbb") [0], Group.mk (cs "a") [1],
         Group.mk (cs "acccc") [2]],
      (Group.mk (cs "a") [1]).fonts ⊆ b.fonts :=
  C1_no_font_dropped
    [Group.mk (cs "abbbb") [0], Group.mk (cs "a") [1], Group.mk (cs "acccc") [2]]
    (by decide) (Group.mk (cs "a") [1]) (by decide)

end FontSrt
